import Mathlib

/-!
Verification of the farmer piece-cache orchestrator
(`crates/subspace-farmer/src/farmer_cache.rs` and
`crates/subspace-farmer/src/farmer_cache/piece_cache_state.rs`).

The Rust code is shallowly embedded: record keys and piece indices are
`Nat` (the multihash encoding of a piece index is injective and plays no
role in the verified properties), `HashMap` is an association list with
insert-replaces semantics, `VecDeque` is a `List` whose head is the
front, and stateful methods become functions returning the new state.
External collaborators (the durable backend, the node, the proximity
heap from the networking crate) are modelled by oracle parameters or,
where their contract matters, by definitions modelled from the spec.
-/

/-- `FarmerCacheOffset` from `farmer_cache.rs`: a `(cache_index, piece_offset)`
pair locating one slot across all backends. -/
structure FarmerCacheOffset where
  cache_index : Nat
  piece_offset : Nat
deriving DecidableEq, Repr

/-- `CacheBackend` from `farmer_cache.rs` (metadata only: the `Arc<dyn PieceCache>`
handle is external and does not participate in the verified state). -/
structure CacheBackend where
  used_capacity : Nat
  total_capacity : Nat
deriving DecidableEq, Repr

/-- `CacheBackend::next_free` (farmer_cache.rs lines 100-109): allocate the next
unused slot by bumping `used_capacity`, or fail when full.  The returned pair is
(result, backend after the call), making the `&mut self` mutation explicit. -/
def CacheBackend.next_free (b : CacheBackend) : Option Nat × CacheBackend :=
  if b.used_capacity < b.total_capacity then
    (some b.used_capacity, { b with used_capacity := b.used_capacity + 1 })
  else
    (none, b)

/-- `CacheBackend::free_size` (farmer_cache.rs lines 111-113):
`total_capacity - used_capacity`. -/
def CacheBackend.free_size (b : CacheBackend) : Nat :=
  b.total_capacity - b.used_capacity

/-- Iterated `next_free` calls, discarding the results: used to state that
`used_capacity` never decreases across any sequence of calls. -/
def CacheBackend.next_free_iter (b : CacheBackend) : Nat → CacheBackend
  | 0 => b
  | n + 1 => (CacheBackend.next_free_iter b n).next_free.2

/-- First-match lookup in an association list; the embedding of `HashMap` reads
(`HashMap::get` / return value of `insert` and `remove`). -/
def klookup (k : Nat) : List (Nat × α) → Option α
  | [] => none
  | (a, v) :: l => if a = k then some v else klookup k l

/-- Removal of a key from an association list; the embedding of `HashMap::remove`'s
effect on the map. -/
def keraseKey (k : Nat) (l : List (Nat × α)) : List (Nat × α) :=
  l.filter (fun p => p.1 ≠ k)

/-- `PieceCachesState` from `piece_cache_state.rs`: the in-memory index of which
backend slot holds which piece, the queue of reusable holes, and the backends. -/
structure PieceCachesState where
  stored_pieces : List (Nat × FarmerCacheOffset)
  dangling_free_offsets : List FarmerCacheOffset
  backends : List CacheBackend
deriving DecidableEq, Repr

/-- `PieceCachesState::total_capacity` (piece_cache_state.rs lines 35-38). -/
def PieceCachesState.total_capacity (s : PieceCachesState) : Nat :=
  s.backends.foldl (fun acc b => acc + b.total_capacity) 0

/-- `PieceCachesState::get_stored_piece` (piece_cache_state.rs lines 70-75). -/
def PieceCachesState.get_stored_piece (s : PieceCachesState) (key : Nat) :
    Option FarmerCacheOffset :=
  klookup key s.stored_pieces

/-- `PieceCachesState::contains_stored_piece` (piece_cache_state.rs lines 77-79). -/
def PieceCachesState.contains_stored_piece (s : PieceCachesState) (key : Nat) : Bool :=
  (klookup key s.stored_pieces).isSome

/-- `PieceCachesState::push_stored_piece` (piece_cache_state.rs lines 81-87):
`HashMap::insert`, returning the previous offset at that key if any. -/
def PieceCachesState.push_stored_piece (s : PieceCachesState) (key : Nat)
    (cache_offset : FarmerCacheOffset) : Option FarmerCacheOffset × PieceCachesState :=
  (klookup key s.stored_pieces,
   { s with stored_pieces := (key, cache_offset) :: keraseKey key s.stored_pieces })

/-- `PieceCachesState::remove_stored_piece` (piece_cache_state.rs lines 95-100):
`HashMap::remove`.  Note that it only removes the map entry; it does not touch
`dangling_free_offsets`. -/
def PieceCachesState.remove_stored_piece (s : PieceCachesState) (key : Nat) :
    Option FarmerCacheOffset × PieceCachesState :=
  (klookup key s.stored_pieces,
   { s with stored_pieces := keraseKey key s.stored_pieces })

/-- `PieceCachesState::push_dangling_free_offset` (piece_cache_state.rs
lines 115-118): `VecDeque::push_back`. -/
def PieceCachesState.push_dangling_free_offset (s : PieceCachesState)
    (offset : FarmerCacheOffset) : PieceCachesState :=
  { s with dangling_free_offsets := s.dangling_free_offsets ++ [offset] }

/-- `PieceCachesState::get_backend` (piece_cache_state.rs lines 120-122). -/
def PieceCachesState.get_backend (s : PieceCachesState) (cache_index : Nat) :
    Option CacheBackend :=
  s.backends[cache_index]?

/-- `TryStorePieceResult`: outcome of `PlotCache::try_store_piece`
(`Result<bool, Error>` in the interface). -/
inductive TryStoreResult where
  | ok (stored : Bool)
  | err
deriving DecidableEq, Repr

/-- Loop body of `PlotCaches::store_additional_piece` (farmer_cache.rs
lines 959-983).  `plotCachesLen` is `plot_caches.len()`, the first `Nat`
argument is the remaining number of loop iterations, the second is the
`next_plot_cache` atomic counter (`fetch_add(1)` returns the old value, which is
reduced modulo the length to pick the cache).  `tryStore i` is the oracle giving
`plot_caches[i].try_store_piece(piece_index, piece)` for this call.  Faithful to
the source, the `Ok(true)` arm returns `false`. -/
def store_additional_piece_go (plotCachesLen : Nat) (tryStore : Nat → TryStoreResult) :
    Nat → Nat → Bool × Nat
  | 0, ctr => (false, ctr)
  | n + 1, ctr =>
    match tryStore (ctr % plotCachesLen) with
    | .ok true => (false, ctr + 1)
    | .ok false => store_additional_piece_go plotCachesLen tryStore n (ctr + 1)
    | .err => store_additional_piece_go plotCachesLen tryStore n (ctr + 1)

/-- `PlotCaches::store_additional_piece` (farmer_cache.rs lines 954-986):
round-robin over the plot caches, at most `plot_caches.len()` attempts.
Returns (result, new `next_plot_cache` counter). -/
def store_additional_piece (plotCachesLen : Nat) (nextPlotCache : Nat)
    (tryStore : Nat → TryStoreResult) : Bool × Nat :=
  store_additional_piece_go plotCachesLen tryStore plotCachesLen nextPlotCache

/-- C1: the claim says `store_additional_piece` returns `true` at the first
`Ok(true)` response.  Evaluating the embedded code on a single plot cache whose
`try_store_piece` answers `Ok(true)` (counter starting at 0) shows the function
returns `false`: the `Ok(true)` arm at farmer_cache.rs line 967-969 returns
`false`, so the function returns `false` on every input, contradicting the
claim and the caller's reading of the result at line 693-700. -/
theorem store_additional_piece_false_despite_ok_true :
    store_additional_piece 1 0 (fun _ => TryStoreResult.ok true) = (false, 1) := rfl

/-- C8: `CacheBackend::next_free` returns `some old_used_capacity` and bumps
`used_capacity` by one when `used_capacity < total_capacity`, returns `none`
leaving the backend unchanged when the backend is full, and `used_capacity`
never decreases across any sequence of `next_free` calls. -/
theorem next_free_spec (b : CacheBackend) :
    (b.used_capacity < b.total_capacity →
      b.next_free = (some b.used_capacity, { b with used_capacity := b.used_capacity + 1 }))
    ∧ (b.used_capacity = b.total_capacity → b.next_free = (none, b))
    ∧ (∀ n m : Nat, n ≤ m →
        (b.next_free_iter n).used_capacity ≤ (b.next_free_iter m).used_capacity) := by
  refine ⟨fun h => by simp [CacheBackend.next_free, h], fun h => by simp [CacheBackend.next_free, h], ?_⟩
  have step : ∀ c : CacheBackend, c.used_capacity ≤ c.next_free.2.used_capacity := by
    intro c
    unfold CacheBackend.next_free
    split <;> simp
  intro n m hnm
  induction m with
  | zero => simp [Nat.le_zero.mp hnm]
  | succ m ih =>
    rcases Nat.lt_or_ge n (m + 1) with h | h
    · exact le_trans (ih (Nat.lt_succ_iff.mp h)) (step _)
    · have : n = m + 1 := le_antisymm hnm h
      simp [this]

/-- Witness for C8 at a concrete backend. -/
theorem next_free_spec_witness :
    CacheBackend.next_free ⟨2, 5⟩ = (some 2, ⟨3, 5⟩)
    ∧ CacheBackend.next_free ⟨5, 5⟩ = (none, ⟨5, 5⟩)
    ∧ (CacheBackend.next_free_iter ⟨2, 5⟩ 1).used_capacity
        ≤ (CacheBackend.next_free_iter ⟨2, 5⟩ 4).used_capacity :=
  ⟨(next_free_spec ⟨2, 5⟩).1 (by decide), (next_free_spec ⟨5, 5⟩).2.1 (by decide),
   (next_free_spec ⟨2, 5⟩).2.2 1 4 (by decide)⟩

theorem klookup_eq_none_iff {l : List (Nat × α)} {k : Nat} :
    klookup k l = none ↔ ∀ p ∈ l, p.1 ≠ k := by
  induction l with
  | nil => simp [klookup]
  | cons p l ih =>
    obtain ⟨a, v⟩ := p
    by_cases h : a = k <;> simp [klookup, h, ih]

theorem keraseKey_of_klookup_none {l : List (Nat × α)} {k : Nat}
    (h : klookup k l = none) : keraseKey k l = l := by
  rw [keraseKey, List.filter_eq_self]
  intro p hp
  simpa using klookup_eq_none_iff.mp h p hp

/-- C2 counterexample: on the empty state, pushing key 0 at offset (0,0) and then
removing key 0 leaves `dangling_free_offsets` empty — the removed offset does not
appear there, because `remove_stored_piece` does not emit dangling free offsets. -/
theorem push_then_remove_no_dangling :
    ((PieceCachesState.push_stored_piece ⟨[], [], []⟩ 0 ⟨0, 0⟩).2.remove_stored_piece
      0).2.dangling_free_offsets = [] := rfl

/-- C2 (amended): `push_stored_piece(key, offset)` on a state not containing
`key`, followed by `remove_stored_piece(key)`, returns the pushed offset and
leaves the whole Cache State — `stored_pieces`, `backends` and also
`dangling_free_offsets` — unchanged; `remove_stored_piece` does not itself emit
a dangling free offset (its callers do that separately via
`push_dangling_free_offset`). -/
theorem push_then_remove_noop (s : PieceCachesState) (key : Nat)
    (off : FarmerCacheOffset) (h : klookup key s.stored_pieces = none) :
    ((s.push_stored_piece key off).2.remove_stored_piece key).1 = some off
    ∧ ((s.push_stored_piece key off).2.remove_stored_piece key).2 = s := by
  have herase : keraseKey key s.stored_pieces = s.stored_pieces :=
    keraseKey_of_klookup_none h
  constructor
  · simp [PieceCachesState.push_stored_piece, PieceCachesState.remove_stored_piece, klookup]
  · simp only [PieceCachesState.push_stored_piece, PieceCachesState.remove_stored_piece,
      herase]
    have h2 : keraseKey key ((key, off) :: s.stored_pieces) = keraseKey key s.stored_pieces := by
      simp [keraseKey]
    rw [h2, herase]

/-- Witness for C2's amended theorem at a concrete state. -/
theorem push_then_remove_noop_witness :
    ((PieceCachesState.push_stored_piece ⟨[(7, ⟨1, 1⟩)], [⟨0, 2⟩], [⟨3, 4⟩]⟩ 5
        ⟨0, 3⟩).2.remove_stored_piece 5).1 = some ⟨0, 3⟩
    ∧ ((PieceCachesState.push_stored_piece ⟨[(7, ⟨1, 1⟩)], [⟨0, 2⟩], [⟨3, 4⟩]⟩ 5
        ⟨0, 3⟩).2.remove_stored_piece 5).2 = ⟨[(7, ⟨1, 1⟩)], [⟨0, 2⟩], [⟨3, 4⟩]⟩ :=
  push_then_remove_noop ⟨[(7, ⟨1, 1⟩)], [⟨0, 2⟩], [⟨3, 4⟩]⟩ 5 ⟨0, 3⟩ (by decide)

/-- Modelled from the spec: the Proximity Heap (`UniqueRecordBinaryHeap` from the
networking crate, not part of this repository's sources) per spec section 4.3 -
a bounded set of piece indices ordered by XOR distance of the key to the peer
identity. -/
structure Heap where
  peer : Nat
  limit : Nat
  keys : List Nat
deriving DecidableEq, Repr

/-- Modelled from the spec: XOR distance between a key and the peer identity. -/
def Heap.dist (h : Heap) (k : Nat) : Nat := Nat.xor k h.peer

/-- Modelled from the spec: the current farthest element of the heap. -/
def Heap.farthest (h : Heap) : Option Nat :=
  h.keys.foldl
    (fun acc k =>
      match acc with
      | none => some k
      | some m => if h.dist m < h.dist k then some k else some m)
    none

/-- Modelled from the spec (section 4.3): `insert(key) → evicted?` - inserts;
at the limit, a key closer than the current farthest evicts that farthest
element; a key that would itself be farthest beyond the limit is rejected. -/
def Heap.insert (h : Heap) (k : Nat) : Option Nat × Heap :=
  if k ∈ h.keys then (none, h)
  else if h.keys.length < h.limit then (none, { h with keys := h.keys ++ [k] })
  else
    match h.farthest with
    | none => (none, h)
    | some f =>
      if h.dist k < h.dist f then (some f, { h with keys := h.keys.erase f ++ [k] })
      else (none, h)

/-- Modelled from the spec (section 4.3): `remove(key)` removes exactly that key. -/
def Heap.removeKey (h : Heap) (k : Nat) : Heap :=
  { h with keys := h.keys.filter (fun x => x ≠ k) }

/-- Modelled from the spec (section 4.3): `clear()`. -/
def Heap.clear (h : Heap) : Heap := { h with keys := [] }

/-- Modelled from the spec (section 4.3): `set_limit(n)`. -/
def Heap.set_limit (h : Heap) (n : Nat) : Heap := { h with limit := n }

/-- Outcome of `PieceCache::read_piece_index` (`Result<Option<PieceIndex>, Error>`). -/
inductive ReadResult where
  | okSome (pieceIndex : Nat)
  | okNone
  | err
deriving DecidableEq, Repr

/-- The `ForgetKey` arm of `FarmerCacheWorker::handle_command` (farmer_cache.rs
lines 242-279).  `readPieceIndex` is the oracle for
`backend.read_piece_index(piece_offset)`.  Faithful to the source: remove the
map entry (early return if absent), fetch the backend (early return if the
cache index is out of range), push the freed offset as dangling, then remove
the heap entry only when the slot's stored piece index reads back `Ok(Some _)`. -/
def handle_forget_key (caches : PieceCachesState) (heap : Heap) (key : Nat)
    (readPieceIndex : FarmerCacheOffset → ReadResult) : PieceCachesState × Heap :=
  let res := caches.remove_stored_piece key
  match res.1 with
  | none => (res.2, heap)
  | some offset =>
    match res.2.get_backend offset.cache_index with
    | none => (res.2, heap)
    | some _backend =>
      let caches2 := res.2.push_dangling_free_offset offset
      match readPieceIndex offset with
      | .okSome pieceIndex => (caches2, heap.removeKey pieceIndex)
      | .okNone => (caches2, heap)
      | .err => (caches2, heap)

/-- C5: for a `ForgetKey{key}` command with `key` present in `stored_pieces`
(and resolving to an existing backend), the entry is removed from
`stored_pieces`, its offset is appended to `dangling_free_offsets`, backends
are untouched, and the Proximity Heap entry is removed exactly when
`read_piece_index` on the freed slot returns `Ok(Some piece_index)`; on
`Ok(None)` or `Err` the slot is still released but the heap is unchanged. -/
theorem handle_forget_key_present_spec (caches : PieceCachesState) (heap : Heap)
    (key : Nat) (readPieceIndex : FarmerCacheOffset → ReadResult)
    (off : FarmerCacheOffset) (hfound : klookup key caches.stored_pieces = some off)
    (hbackend : off.cache_index < caches.backends.length) :
    (handle_forget_key caches heap key readPieceIndex).1.stored_pieces
        = keraseKey key caches.stored_pieces
    ∧ (handle_forget_key caches heap key readPieceIndex).1.dangling_free_offsets
        = caches.dangling_free_offsets ++ [off]
    ∧ (handle_forget_key caches heap key readPieceIndex).1.backends = caches.backends
    ∧ (∀ idx, readPieceIndex off = ReadResult.okSome idx →
        (handle_forget_key caches heap key readPieceIndex).2 = heap.removeKey idx)
    ∧ (readPieceIndex off = ReadResult.okNone →
        (handle_forget_key caches heap key readPieceIndex).2 = heap)
    ∧ (readPieceIndex off = ReadResult.err →
        (handle_forget_key caches heap key readPieceIndex).2 = heap) := by
  have hb : ∃ b, caches.backends[off.cache_index]? = some b := by
    rw [List.getElem?_eq_getElem hbackend]
    exact ⟨_, rfl⟩
  obtain ⟨b, hb⟩ := hb
  unfold handle_forget_key
  simp only [PieceCachesState.remove_stored_piece, hfound, PieceCachesState.get_backend, hb,
    PieceCachesState.push_dangling_free_offset]
  refine ⟨?_, ?_, ?_, ?_, ?_, ?_⟩
  · cases hread : readPieceIndex off <;> simp [hread]
  · cases hread : readPieceIndex off <;> simp [hread]
  · cases hread : readPieceIndex off <;> simp [hread]
  · intro idx hread; simp [hread]
  · intro hread; simp [hread]
  · intro hread; simp [hread]

/-- Witness for C5 at a concrete state, exercising both the `Ok(Some _)` and the
`Err` read outcomes (two applications of the theorem at different oracles). -/
theorem handle_forget_key_present_spec_witness :
    (handle_forget_key ⟨[(4, ⟨0, 1⟩)], [], [⟨2, 3⟩]⟩ ⟨0, 5, [9]⟩ 4
        (fun _ => ReadResult.okSome 9)).2 = Heap.removeKey ⟨0, 5, [9]⟩ 9
    ∧ (handle_forget_key ⟨[(4, ⟨0, 1⟩)], [], [⟨2, 3⟩]⟩ ⟨0, 5, [9]⟩ 4
        (fun _ => ReadResult.err)).1.dangling_free_offsets = [] ++ [⟨0, 1⟩]
    ∧ (handle_forget_key ⟨[(4, ⟨0, 1⟩)], [], [⟨2, 3⟩]⟩ ⟨0, 5, [9]⟩ 4
        (fun _ => ReadResult.err)).2 = ⟨0, 5, [9]⟩ :=
  ⟨(handle_forget_key_present_spec ⟨[(4, ⟨0, 1⟩)], [], [⟨2, 3⟩]⟩ ⟨0, 5, [9]⟩ 4
      (fun _ => ReadResult.okSome 9) ⟨0, 1⟩ (by decide) (by decide)).2.2.2.1 9 rfl,
   (handle_forget_key_present_spec ⟨[(4, ⟨0, 1⟩)], [], [⟨2, 3⟩]⟩ ⟨0, 5, [9]⟩ 4
      (fun _ => ReadResult.err) ⟨0, 1⟩ (by decide) (by decide)).2.1,
   (handle_forget_key_present_spec ⟨[(4, ⟨0, 1⟩)], [], [⟨2, 3⟩]⟩ ⟨0, 5, [9]⟩ 4
      (fun _ => ReadResult.err) ⟨0, 1⟩ (by decide) (by decide)).2.2.2.2.2 rfl⟩

/-- C10: a `ForgetKey{key}` command for a key absent from `stored_pieces` is a
complete no-op: the cache state (stored pieces, dangling free offsets, backend
used capacities) and the Proximity Heap are all unchanged. -/
theorem handle_forget_key_absent_noop (caches : PieceCachesState) (heap : Heap)
    (key : Nat) (readPieceIndex : FarmerCacheOffset → ReadResult)
    (h : klookup key caches.stored_pieces = none) :
    handle_forget_key caches heap key readPieceIndex = (caches, heap) := by
  unfold handle_forget_key
  simp only [PieceCachesState.remove_stored_piece, h, keraseKey_of_klookup_none h]

/-- Witness for C10 at a concrete state. -/
theorem handle_forget_key_absent_noop_witness :
    handle_forget_key ⟨[(4, ⟨0, 1⟩)], [⟨0, 0⟩], [⟨2, 3⟩]⟩ ⟨0, 5, [9]⟩ 7
        (fun _ => ReadResult.okSome 9)
      = (⟨[(4, ⟨0, 1⟩)], [⟨0, 0⟩], [⟨2, 3⟩]⟩, ⟨0, 5, [9]⟩) :=
  handle_forget_key_absent_noop ⟨[(4, ⟨0, 1⟩)], [⟨0, 0⟩], [⟨2, 3⟩]⟩ ⟨0, 5, [9]⟩ 7
    (fun _ => ReadResult.okSome 9) (by decide)

/-- `MaybePieceStoredResult` from the farm interface: outcome of
`PlotCache::is_piece_maybe_stored` (with `err` for the `Err` case). -/
inductive ProbeResult where
  | yes
  | no
  | vacant
  | err
deriving DecidableEq, Repr

/-- `ProviderRecord` as constructed by `FarmerCache::record` (farmer_cache.rs
lines 1218-1223 and 1257-1262): key, provider peer id, no expiry, no addresses. -/
structure ProviderRecord where
  key : Nat
  provider : Nat
  expires : Option Nat
  addresses : List Nat
deriving DecidableEq, Repr

/-- `FarmerCache::record` (`LocalRecordProvider` impl, farmer_cache.rs
lines 1213-1263).  `pieceCachesLock`/`plotCachesLock` are the outcomes of the
two non-blocking `try_read()` calls (`none` = lock contended, the `?` operator
returns `none`).  Each plot cache is an oracle from key to its
`is_piece_maybe_stored` answer; `timedOut` models the 100 ms bound on the probe
(`unwrap_or_default()` yields `false` on timeout).  The returned `Bool` records
whether the plot caches were probed at all. -/
def record (peerId : Nat) (key : Nat) (pieceCachesLock : Option PieceCachesState)
    (plotCachesLock : Option (List (Nat → ProbeResult))) (timedOut : Bool) :
    Option ProviderRecord × Bool :=
  match pieceCachesLock with
  | none => (none, false)
  | some caches =>
    if caches.contains_stored_piece key then
      (some { key := key, provider := peerId, expires := none, addresses := [] }, false)
    else
      match plotCachesLock with
      | none => (none, false)
      | some plotCaches =>
        let found :=
          if timedOut then false
          else plotCaches.any (fun probe => probe key == ProbeResult.yes)
        (if found then
          some { key := key, provider := peerId, expires := none, addresses := [] }
         else none, true)

/-- C9: `record(key)` returns `none` when the non-blocking read lock on the
piece cache state cannot be acquired; when the lock is acquired and
`stored_pieces` contains the key it returns a provider record with the farmer's
peer identity as provider, without probing the plot caches. -/
theorem record_spec (peerId key : Nat) (pieceCachesLock : Option PieceCachesState)
    (plotCachesLock : Option (List (Nat → ProbeResult))) (timedOut : Bool) :
    (pieceCachesLock = none →
      record peerId key pieceCachesLock plotCachesLock timedOut = (none, false))
    ∧ (∀ caches, pieceCachesLock = some caches →
        caches.contains_stored_piece key = true →
        record peerId key pieceCachesLock plotCachesLock timedOut =
          (some { key := key, provider := peerId, expires := none, addresses := [] },
           false)) := by
  constructor
  · intro h; simp [record, h]
  · intro caches hlock hcontains
    simp [record, hlock, hcontains]

/-- Witness for C9: the contended-lock case and the cache-hit case at concrete
inputs (two applications of the theorem). -/
theorem record_spec_witness :
    record 11 4 none (some []) false = (none, false)
    ∧ record 11 4 (some ⟨[(4, ⟨0, 1⟩)], [], [⟨2, 3⟩]⟩) (some [fun _ => ProbeResult.no])
        false
      = (some { key := 4, provider := 11, expires := none, addresses := [] }, false) :=
  ⟨(record_spec 11 4 none (some []) false).1 rfl,
   (record_spec 11 4 (some ⟨[(4, ⟨0, 1⟩)], [], [⟨2, 3⟩]⟩) (some [fun _ => ProbeResult.no])
      false).2 ⟨[(4, ⟨0, 1⟩)], [], [⟨2, 3⟩]⟩ rfl (by decide)⟩

/-- Modelled from the spec: `segment_piece_indexes` (`subspace-core-primitives`,
not part of this repository's sources) - per spec section 3, a segment
enumerates a contiguous, deterministic set of piece indices.  `pps` is the
(positive, fixed) number of pieces per segment. -/
def segmentPieceIndexes (pps : Nat) (segmentIndex : Nat) : List Nat :=
  List.range' (segmentIndex * pps) pps

/-- The heap portion of `FarmerCacheWorker::initialize` (farmer_cache.rs
lines 472-481): clear the heap, set its limit to the cache's total capacity,
then for every segment from 0 through `lastSegmentIndex` inclusive insert every
piece index of the segment. -/
def initialize_heap_phase (totalCapacity : Nat) (lastSegmentIndex : Nat) (pps : Nat)
    (heap : Heap) : Heap :=
  let heap1 := heap.clear
  let heap2 := heap1.set_limit totalCapacity
  (List.range (lastSegmentIndex + 1)).foldl
    (fun h segmentIndex =>
      (segmentPieceIndexes pps segmentIndex).foldl (fun h p => (h.insert p).2) h)
    heap2

theorem Heap.insert_peer_limit (h : Heap) (k : Nat) :
    (h.insert k).2.peer = h.peer ∧ (h.insert k).2.limit = h.limit := by
  unfold Heap.insert
  split
  · exact ⟨rfl, rfl⟩
  split
  · exact ⟨rfl, rfl⟩
  split
  · exact ⟨rfl, rfl⟩
  split <;> exact ⟨rfl, rfl⟩

theorem foldl_insert_peer_limit (l : List Nat) (h : Heap) :
    (l.foldl (fun h p => (Heap.insert h p).2) h).peer = h.peer
    ∧ (l.foldl (fun h p => (Heap.insert h p).2) h).limit = h.limit := by
  induction l generalizing h with
  | nil => exact ⟨rfl, rfl⟩
  | cons p l ih =>
    simp only [List.foldl_cons]
    exact ⟨((ih _).1).trans (Heap.insert_peer_limit h p).1,
           ((ih _).2).trans (Heap.insert_peer_limit h p).2⟩

theorem foldl_foldl_eq_foldl_flatten (ls : List Nat) (f : Nat → List Nat) (h : Heap) :
    ls.foldl (fun h s => (f s).foldl (fun h p => (Heap.insert h p).2) h) h
      = (ls.flatMap f).foldl (fun h p => (Heap.insert h p).2) h := by
  induction ls generalizing h with
  | nil => rfl
  | cons s ls ih => simp [List.flatMap_cons, List.foldl_append, ih]

/-- C7: during initialization, once the head segment index is known, the
Proximity Heap is cleared, its limit is set to the cache's `total_capacity()`,
and every piece index of every segment from 0 through the head segment
inclusive is inserted (in segment order): the resulting heap is exactly the
left fold of `Heap.insert` over the concatenated piece indices of segments
`0..=head`, starting from the emptied heap with the new limit, every piece
index of every segment `s ≤ head` occurring in that insertion sequence. -/
theorem initialize_heap_phase_spec (totalCapacity lastSegmentIndex pps : Nat)
    (heap : Heap) :
    initialize_heap_phase totalCapacity lastSegmentIndex pps heap
      = ((List.range (lastSegmentIndex + 1)).flatMap (segmentPieceIndexes pps)).foldl
          (fun h p => (Heap.insert h p).2)
          { peer := heap.peer, limit := totalCapacity, keys := [] }
    ∧ (initialize_heap_phase totalCapacity lastSegmentIndex pps heap).limit
        = totalCapacity
    ∧ ∀ s p, s ≤ lastSegmentIndex → p ∈ segmentPieceIndexes pps s →
        p ∈ (List.range (lastSegmentIndex + 1)).flatMap (segmentPieceIndexes pps) := by
  have hmain : initialize_heap_phase totalCapacity lastSegmentIndex pps heap
      = ((List.range (lastSegmentIndex + 1)).flatMap (segmentPieceIndexes pps)).foldl
          (fun h p => (Heap.insert h p).2)
          { peer := heap.peer, limit := totalCapacity, keys := [] } := by
    unfold initialize_heap_phase
    rw [foldl_foldl_eq_foldl_flatten]
    rfl
  refine ⟨hmain, ?_, ?_⟩
  · rw [hmain]
    exact (foldl_insert_peer_limit _ _).2
  · intro s p hs hp
    exact List.mem_flatMap.mpr ⟨s, List.mem_range.mpr (Nat.lt_succ_of_le hs), hp⟩

/-- Witness for C7's universally quantified membership conjunct at concrete
values. -/
theorem initialize_heap_phase_spec_witness :
    (initialize_heap_phase 3 1 2 ⟨6, 0, [42]⟩).limit = 3
    ∧ 3 ∈ (List.range (1 + 1)).flatMap (segmentPieceIndexes 2) :=
  ⟨(initialize_heap_phase_spec 3 1 2 ⟨6, 0, [42]⟩).2.1,
   (initialize_heap_phase_spec 3 1 2 ⟨6, 0, [42]⟩).2.2 1 3 (by decide) (by decide)⟩

/-- Events observable in the linearized trace of
`FarmerCacheWorker::process_segment_header` (farmer_cache.rs lines 616-724):
fetching a piece from the node, acknowledging the segment to the node, trying to
store a piece in the plot caches, persisting a piece into the piece cache. -/
inductive SegEvent where
  | fetch (pieceIndex : Nat)
  | ack (segmentIndex : Nat)
  | storePlot (pieceIndex : Nat)
  | persistPiece (pieceIndex : Nat)
deriving DecidableEq, Repr

/-- An event that persists a piece into the piece cache or into the plot
caches. -/
def isPersistEvent : SegEvent → Bool
  | .storePlot _ => true
  | .persistPiece _ => true
  | _ => false

/-- The sequential second pass of `process_segment_header` (farmer_cache.rs
lines 693-715): for each downloaded `(piece_index, piece)` pair, first offer it
to the plot caches (`store_additional_piece`), then, when the heap still
accepts the key, persist it in the piece cache.  `σ` is the worker/cache state
threaded through `persist_piece_in_cache`, whose internals are irrelevant to
the trace shape. -/
def second_pass_trace (shouldInclude : σ → Nat → Bool) (persistStep : σ → Nat → σ) :
    σ → List (Nat × Nat) → List SegEvent × σ
  | st, [] => ([], st)
  | st, (p, _piece) :: rest =>
    if shouldInclude st p then
      let st' := persistStep st p
      let res := second_pass_trace shouldInclude persistStep st' rest
      (SegEvent.storePlot p :: SegEvent.persistPiece p :: res.1, res.2)
    else
      let res := second_pass_trace shouldInclude persistStep st rest
      (SegEvent.storePlot p :: res.1, res.2)

/-- `FarmerCacheWorker::process_segment_header` (farmer_cache.rs lines 616-724)
as a linearized event trace.  When `lastSegmentIndex < segmentIndex`: every
piece index of the segment that the heap or the plot caches want is fetched
from the node (`nodePiece`, `none` = retrieval failure), the successfully
fetched pairs are collected, the segment is acknowledged, and only then is the
collected list walked, offering each piece to the plot caches and persisting it
when the heap still accepts it.  Otherwise the segment is acknowledged
immediately and nothing else happens.  Returns (trace, final worker state, new
`last_segment_index`). -/
def process_segment_header (lastSegmentIndex segmentIndex : Nat)
    (pieceIndexes : List Nat) (shouldStorePlot : Nat → Bool)
    (nodePiece : Nat → Option Nat) (shouldInclude : σ → Nat → Bool)
    (persistStep : σ → Nat → σ) (st : σ) : List SegEvent × σ × Nat :=
  if lastSegmentIndex < segmentIndex then
    let considered :=
      pieceIndexes.filter (fun p => shouldInclude st p || shouldStorePlot p)
    let collected :=
      considered.filterMap (fun p => (nodePiece p).map (fun piece => (p, piece)))
    let second := second_pass_trace shouldInclude persistStep st collected
    (considered.map SegEvent.fetch ++ SegEvent.ack segmentIndex :: second.1,
     second.2, segmentIndex)
  else
    ([SegEvent.ack segmentIndex], st, lastSegmentIndex)

/-- C6: in the trace of `process_segment_header`, the acknowledgment of the
segment precedes every event that persists one of the segment's pieces (into
the piece cache or the plot caches): the trace splits as `pre ++ ack :: post`
with no persist event in `pre`.  When the segment index is not greater than
`last_segment_index`, the whole trace is just the immediate acknowledgment - no
fetching, no persisting, and the state and `last_segment_index` are
unchanged. -/
theorem process_segment_header_ack_before_persist {σ : Type}
    (lastSegmentIndex segmentIndex : Nat) (pieceIndexes : List Nat)
    (shouldStorePlot : Nat → Bool) (nodePiece : Nat → Option Nat)
    (shouldInclude : σ → Nat → Bool) (persistStep : σ → Nat → σ) (st : σ) :
    (lastSegmentIndex < segmentIndex →
      ∃ pre post,
        (process_segment_header lastSegmentIndex segmentIndex pieceIndexes
            shouldStorePlot nodePiece shouldInclude persistStep st).1
          = pre ++ SegEvent.ack segmentIndex :: post
        ∧ ∀ e ∈ pre, isPersistEvent e = false)
    ∧ (segmentIndex ≤ lastSegmentIndex →
        process_segment_header lastSegmentIndex segmentIndex pieceIndexes
            shouldStorePlot nodePiece shouldInclude persistStep st
          = ([SegEvent.ack segmentIndex], st, lastSegmentIndex)) := by
  constructor
  · intro h
    refine ⟨(pieceIndexes.filter
        (fun p => shouldInclude st p || shouldStorePlot p)).map SegEvent.fetch,
      (second_pass_trace shouldInclude persistStep st
        ((pieceIndexes.filter (fun p => shouldInclude st p || shouldStorePlot p)).filterMap
          (fun p => (nodePiece p).map (fun piece => (p, piece))))).1,
      ?_, ?_⟩
    · simp [process_segment_header, h]
    · intro e he
      obtain ⟨p, _, rfl⟩ := List.mem_map.mp he
      rfl
  · intro h
    simp [process_segment_header, Nat.not_lt.mpr h]

/-- Witness for C6: both branches at concrete inputs (state type `Nat`, one
piece that is fetched and persisted). -/
theorem process_segment_header_ack_before_persist_witness :
    (∃ pre post,
      (process_segment_header 0 1 [5] (fun _ => false) (fun p => some p)
          (fun _ _ => true) (fun s _ => s + 1) 0).1
        = pre ++ SegEvent.ack 1 :: post
      ∧ ∀ e ∈ pre, isPersistEvent e = false)
    ∧ process_segment_header 1 1 [5] (fun _ => false) (fun p => some p)
        (fun _ _ => true) (fun s _ => s + 1) 0
      = ([SegEvent.ack 1], 0, 1) :=
  ⟨(process_segment_header_ack_before_persist 0 1 [5] (fun _ => false)
      (fun p => some p) (fun _ _ => true) (fun s _ => s + 1) 0).1 (by decide),
   (process_segment_header_ack_before_persist 1 1 [5] (fun _ => false)
      (fun p => some p) (fun _ _ => true) (fun s _ => s + 1) 0).2 (by decide)⟩

theorem klookup_cons (k a : Nat) (v : α) (l : List (Nat × α)) :
    klookup k ((a, v) :: l) = if a = k then some v else klookup k l := rfl

theorem keraseKey_cons (k a : Nat) (v : α) (l : List (Nat × α)) :
    keraseKey k ((a, v) :: l)
      = if a = k then keraseKey k l else (a, v) :: keraseKey k l := by
  by_cases h : a = k <;> simp [keraseKey, h]

theorem klookup_keraseKey_ne {l : List (Nat × α)} {j k : Nat} (h : j ≠ k) :
    klookup j (keraseKey k l) = klookup j l := by
  induction l with
  | nil => rfl
  | cons p l ih =>
    obtain ⟨a, v⟩ := p
    rw [keraseKey_cons]
    by_cases hak : a = k
    · subst hak
      rw [if_pos rfl, ih, klookup_cons, if_neg (fun hj => h hj.symm)]
    · rw [if_neg hak, klookup_cons, klookup_cons, ih]

/-- Recursion underlying `PieceCachesState::free_unneeded_stored_pieces`
(piece_cache_state.rs lines 102-113): walk the stored entries; an entry whose
key is found in `piece_indices_to_store` survives and its key is removed from
that map (`HashMap::remove(key).is_none()` test), an entry whose key is absent
is extracted and its offset collected (in extraction order) for
`dangling_free_offsets.push_back`.  Returns (surviving entries, remaining
desired map, extracted offsets). -/
def free_unneeded_go : List (Nat × FarmerCacheOffset) → List (Nat × Nat) →
    List (Nat × FarmerCacheOffset) × List (Nat × Nat) × List FarmerCacheOffset
  | [], desired => ([], desired, [])
  | (k, off) :: rest, desired =>
    match klookup k desired with
    | some _ =>
      let res := free_unneeded_go rest (keraseKey k desired)
      ((k, off) :: res.1, res.2.1, res.2.2)
    | none =>
      let res := free_unneeded_go rest desired
      (res.1, res.2.1, off :: res.2.2)

/-- `PieceCachesState::free_unneeded_stored_pieces` (piece_cache_state.rs
lines 102-113): extracted offsets are pushed to the back of
`dangling_free_offsets`; the mutated `piece_indices_to_store` map is returned
alongside the new state. -/
def PieceCachesState.free_unneeded_stored_pieces (s : PieceCachesState)
    (desired : List (Nat × Nat)) : PieceCachesState × List (Nat × Nat) :=
  let res := free_unneeded_go s.stored_pieces desired
  ({ s with
      stored_pieces := res.1,
      dangling_free_offsets := s.dangling_free_offsets ++ res.2.2 }, res.2.1)

theorem free_unneeded_go_spec (stored : List (Nat × FarmerCacheOffset))
    (desired : List (Nat × Nat)) (h : (stored.map Prod.fst).Nodup) :
    free_unneeded_go stored desired =
      (stored.filter (fun p => (klookup p.1 desired).isSome),
       desired.filter (fun q => (klookup q.1 stored).isNone),
       (stored.filter (fun p => (klookup p.1 desired).isNone)).map Prod.snd) := by
  induction stored generalizing desired with
  | nil =>
    simp only [free_unneeded_go, List.filter_nil, List.map_nil]
    rw [List.filter_eq_self.mpr]
    intro q _
    simp [klookup]
  | cons p rest ih =>
    obtain ⟨k, off⟩ := p
    simp only [List.map_cons, List.nodup_cons] at h
    obtain ⟨hknotin, hnodup⟩ := h
    have hne : ∀ q ∈ rest, q.1 ≠ k := by
      intro q hq hqk
      exact hknotin (hqk ▸ List.mem_map_of_mem Prod.fst hq)
    cases hk : klookup k desired with
    | some v =>
      have ha : rest.filter (fun p => (klookup p.1 (keraseKey k desired)).isSome)
          = rest.filter (fun p => (klookup p.1 desired).isSome) :=
        List.filter_congr (fun q hq => by rw [klookup_keraseKey_ne (hne q hq)])
      have hd : rest.filter (fun p => (klookup p.1 (keraseKey k desired)).isNone)
          = rest.filter (fun p => (klookup p.1 desired).isNone) :=
        List.filter_congr (fun q hq => by rw [klookup_keraseKey_ne (hne q hq)])
      have hc : (keraseKey k desired).filter (fun q => (klookup q.1 rest).isNone)
          = desired.filter (fun q => (klookup q.1 ((k, off) :: rest)).isNone) := by
        rw [keraseKey, List.filter_filter]
        refine List.filter_congr (fun q _ => ?_)
        rw [klookup_cons]
        by_cases hq : k = q.1
        · simp [hq]
        · have hq' : q.1 ≠ k := fun hqk => hq hqk.symm
          simp [hq, hq']
      simp only [free_unneeded_go, hk, ih (keraseKey k desired) hnodup, ha, hd, hc,
        List.filter_cons, klookup_cons, hk, Option.isSome_some, Option.isNone_some,
        if_true, Bool.false_eq_true, if_false, List.map_cons]
    | none =>
      have hqdes : ∀ q ∈ desired, q.1 ≠ k := klookup_eq_none_iff.mp hk
      have hc : desired.filter (fun q => (klookup q.1 rest).isNone)
          = desired.filter (fun q => (klookup q.1 ((k, off) :: rest)).isNone) := by
        refine List.filter_congr (fun q hq => ?_)
        rw [klookup_cons, if_neg (fun hqk => hqdes q hq hqk.symm)]
      simp only [free_unneeded_go, hk, ih desired hnodup, hc, List.filter_cons,
        klookup_cons, Option.isSome_none, Option.isNone_none, Bool.false_eq_true,
        if_false, if_true, List.map_cons]

/-- C4: after `free_unneeded_stored_pieces(desired_set)` (for a well-formed
stored map with distinct keys), `stored_pieces` contains exactly the
previously-stored entries whose key was in `desired_set`; the offsets of all
removed entries are appended to `dangling_free_offsets`; the backends are
untouched; and the returned `desired_set` contains exactly the keys that were
not already stored - the remaining download set. -/
theorem free_unneeded_stored_pieces_spec (s : PieceCachesState)
    (desired : List (Nat × Nat)) (h : (s.stored_pieces.map Prod.fst).Nodup) :
    (s.free_unneeded_stored_pieces desired).1.stored_pieces
        = s.stored_pieces.filter (fun p => (klookup p.1 desired).isSome)
    ∧ (s.free_unneeded_stored_pieces desired).2
        = desired.filter (fun q => (klookup q.1 s.stored_pieces).isNone)
    ∧ (s.free_unneeded_stored_pieces desired).1.dangling_free_offsets
        = s.dangling_free_offsets
          ++ (s.stored_pieces.filter (fun p => (klookup p.1 desired).isNone)).map Prod.snd
    ∧ (s.free_unneeded_stored_pieces desired).1.backends = s.backends := by
  have hgo := free_unneeded_go_spec s.stored_pieces desired h
  refine ⟨?_, ?_, ?_, ?_⟩ <;>
    simp [PieceCachesState.free_unneeded_stored_pieces, hgo]

/-- Witness for C4 at a concrete state: keys 1 and 2 stored, desired set
holding keys 2 and 3; key 1 is evicted to the dangling queue, key 2 survives,
key 3 remains to be downloaded. -/
theorem free_unneeded_stored_pieces_spec_witness :
    (PieceCachesState.free_unneeded_stored_pieces
        ⟨[(1, ⟨0, 0⟩), (2, ⟨0, 1⟩)], [], [⟨2, 4⟩]⟩ [(2, 9), (3, 7)]).1.stored_pieces
      = [(2, ⟨0, 1⟩)]
    ∧ (PieceCachesState.free_unneeded_stored_pieces
        ⟨[(1, ⟨0, 0⟩), (2, ⟨0, 1⟩)], [], [⟨2, 4⟩]⟩ [(2, 9), (3, 7)]).2 = [(3, 7)]
    ∧ (PieceCachesState.free_unneeded_stored_pieces
        ⟨[(1, ⟨0, 0⟩), (2, ⟨0, 1⟩)], [], [⟨2, 4⟩]⟩ [(2, 9), (3, 7)]).1.dangling_free_offsets
      = [⟨0, 0⟩] := by
  have h := free_unneeded_stored_pieces_spec
    ⟨[(1, ⟨0, 0⟩), (2, ⟨0, 1⟩)], [], [⟨2, 4⟩]⟩ [(2, 9), (3, 7)] (by decide)
  exact ⟨h.1.trans (by decide), h.2.1.trans (by decide), h.2.2.1.trans (by decide)⟩

/-- The `rev().find_map(next_free)` traversal of `pop_free_offset`
(piece_cache_state.rs lines 58-65): each pair carries a backend index together
with the backend it points at (a mutable reference in the source); the first
successful `next_free` updates that slot of the backends vector.  A failing
`next_free` leaves its backend unchanged. -/
def findMapNextFree (backends : List CacheBackend) :
    List (Nat × CacheBackend) → Option (FarmerCacheOffset × List CacheBackend)
  | [] => none
  | (i, b) :: rest =>
    match b.next_free with
    | (some off, b') => some (⟨i, off⟩, backends.set i b')
    | (none, _) => findMapNextFree backends rest

theorem findMapNextFree_cons_alloc (backends : List CacheBackend) (i : Nat)
    (b : CacheBackend) (rest : List (Nat × CacheBackend))
    (hb : b.used_capacity < b.total_capacity) :
    findMapNextFree backends ((i, b) :: rest)
      = some (⟨i, b.used_capacity⟩,
          backends.set i { b with used_capacity := b.used_capacity + 1 }) := by
  have hnf : b.next_free
      = (some b.used_capacity, { b with used_capacity := b.used_capacity + 1 }) := by
    unfold CacheBackend.next_free
    rw [if_pos hb]
  show (match b.next_free with
    | (some off, b') => some (⟨i, off⟩, backends.set i b')
    | (none, _) => findMapNextFree backends rest)
    = some (⟨i, b.used_capacity⟩,
        backends.set i { b with used_capacity := b.used_capacity + 1 })
  rw [hnf]

theorem findMapNextFree_cons_full (backends : List CacheBackend) (i : Nat)
    (b : CacheBackend) (rest : List (Nat × CacheBackend))
    (hb : ¬b.used_capacity < b.total_capacity) :
    findMapNextFree backends ((i, b) :: rest) = findMapNextFree backends rest := by
  have hnf : b.next_free = (none, b) := by
    unfold CacheBackend.next_free
    rw [if_neg hb]
  show (match b.next_free with
    | (some off, b') => some (⟨i, off⟩, backends.set i b')
    | (none, _) => findMapNextFree backends rest)
    = findMapNextFree backends rest
  rw [hnf]

theorem findMapNextFree_eq_none_iff (backends : List CacheBackend)
    (l : List (Nat × CacheBackend)) :
    findMapNextFree backends l = none ↔ ∀ p ∈ l, p.2.free_size = 0 := by
  induction l with
  | nil => simp [findMapNextFree]
  | cons p rest ih =>
    obtain ⟨i, b⟩ := p
    by_cases hb : b.used_capacity < b.total_capacity
    · rw [findMapNextFree_cons_alloc backends i b rest hb]
      constructor
      · intro h; exact absurd h (by simp)
      · intro hall
        have h0 : b.free_size = 0 := hall (i, b) (List.mem_cons_self _ _)
        unfold CacheBackend.free_size at h0
        omega
    · rw [findMapNextFree_cons_full backends i b rest hb]
      rw [ih]
      constructor
      · intro hall
        intro p hp
        rcases List.mem_cons.mp hp with heq | hmem
        · subst heq
          show b.free_size = 0
          unfold CacheBackend.free_size
          omega
        · exact hall p hmem
      · intro hall p hp
        exact hall p (List.mem_cons_of_mem _ hp)

/-- The key comparison of `sort_unstable_by_key(free_size)`
(piece_cache_state.rs line 57). -/
def freeSizeLE (a b : Nat × CacheBackend) : Prop :=
  a.2.free_size ≤ b.2.free_size

instance : DecidableRel freeSizeLE := fun a b => by
  unfold freeSizeLE; exact inferInstance

/-- The contract of `sort_unstable_by_key(free_size)` (piece_cache_state.rs
line 57): the result is a permutation of the input that is sorted by ascending
free size.  Rust documents `sort_unstable` as not preserving the order of equal
elements, so the relative order of backends with equal free size is NOT
determined by the source; the embedding is therefore relational - every
`sorted` satisfying this predicate is an admissible outcome of the sort. -/
def sortedByFreeSize (input sorted : List (Nat × CacheBackend)) : Prop :=
  sorted.Perm input ∧ sorted.Sorted freeSizeLE

/-- `PieceCachesState::pop_free_offset` (piece_cache_state.rs lines 40-68)
relative to an admissible outcome `sorted` of the unstable sort of the
enumerated backends: pop the front dangling free offset when the queue is
non-empty; otherwise traverse the sorted backends in reverse (largest free size
first) and allocate from the first backend that still has a free slot. -/
def PieceCachesState.pop_free_offset_with (s : PieceCachesState)
    (sorted : List (Nat × CacheBackend)) : Option FarmerCacheOffset × PieceCachesState :=
  match s.dangling_free_offsets with
  | f :: rest => (some f, { s with dangling_free_offsets := rest })
  | [] =>
    match findMapNextFree s.backends sorted.reverse with
    | some (off, backends') => (some off, { s with backends := backends' })
    | none => (none, s)

/-- C3 counterexample: the claim's tie-break does not hold on the code.  With
two backends of equal free size (state `⟨[], [], [⟨0,2⟩, ⟨0,2⟩]⟩`, both of free
size 2), the list `[(1, ⟨0,2⟩), (0, ⟨0,2⟩)]` is an admissible outcome of
`sort_unstable_by_key(free_size)` - a permutation of the enumerated backends
sorted by free size; the unstable sort is documented to possibly reorder equal
elements - and under it `pop_free_offset` allocates from `cache_index` 0
(result `some ⟨0, 0⟩`) even though `cache_index` 1 has the same, maximal, free
size: the tie is not broken in favor of the higher `cache_index`. -/
theorem pop_free_offset_tie_break_counterexample :
    sortedByFreeSize ([⟨0, 2⟩, ⟨0, 2⟩] : List CacheBackend).enum
        [(1, ⟨0, 2⟩), (0, ⟨0, 2⟩)]
    ∧ (PieceCachesState.pop_free_offset_with ⟨[], [], [⟨0, 2⟩, ⟨0, 2⟩]⟩
        [(1, ⟨0, 2⟩), (0, ⟨0, 2⟩)]).1 = some ⟨0, 0⟩ :=
  ⟨⟨by decide, by decide⟩, by decide⟩

/-- C3 (amended): for every admissible outcome of the unstable sort,
`pop_free_offset` returns the front of `dangling_free_offsets` (FIFO) whenever
the queue is non-empty, touching nothing else; when the queue is empty and some
backend still has free space, it allocates via `next_free` from a backend with
the largest `free_size` (which backend among those sharing the largest free
size is unspecified, because `sort_unstable` may reorder equal elements),
returning that backend's old `used_capacity` as the fresh offset and bumping
only that backend; and it returns `none` exactly when the queue is empty and
every backend is full. -/
theorem pop_free_offset_with_spec (s : PieceCachesState)
    (sorted : List (Nat × CacheBackend))
    (hsort : sortedByFreeSize s.backends.enum sorted) :
    (∀ f rest, s.dangling_free_offsets = f :: rest →
      s.pop_free_offset_with sorted
        = (some f, { s with dangling_free_offsets := rest }))
    ∧ (s.dangling_free_offsets = [] → (∃ c ∈ s.backends, 0 < c.free_size) →
      ∃ i b, s.backends[i]? = some b ∧ 0 < b.free_size
        ∧ (∀ c ∈ s.backends, c.free_size ≤ b.free_size)
        ∧ s.pop_free_offset_with sorted =
            (some ⟨i, b.used_capacity⟩,
             { s with backends :=
                 s.backends.set i { b with used_capacity := b.used_capacity + 1 } }))
    ∧ ((s.pop_free_offset_with sorted).1 = none ↔
        s.dangling_free_offsets = [] ∧ ∀ b ∈ s.backends, b.free_size = 0) := by
  have hrevperm : sorted.reverse.Perm s.backends.enum :=
    (List.reverse_perm sorted).trans hsort.1
  refine ⟨?_, ?_, ?_⟩
  · intro f rest hd
    unfold PieceCachesState.pop_free_offset_with
    rw [hd]
  · intro hd hex
    obtain ⟨c0, hc0mem, hc0pos⟩ := hex
    obtain ⟨n0, hn0, hn0c⟩ := List.mem_iff_getElem.mp hc0mem
    have hc0rev : (n0, c0) ∈ sorted.reverse :=
      hrevperm.mem_iff.mpr (List.mk_mem_enum_iff_getElem?.mpr
        (by rw [List.getElem?_eq_getElem hn0, hn0c]))
    cases hrev : sorted.reverse with
    | nil => rw [hrev] at hc0rev; exact absurd hc0rev (List.not_mem_nil _)
    | cons z t =>
      obtain ⟨iz, bz⟩ := z
      have hpw : sorted.reverse.Pairwise (fun a c => freeSizeLE c a) :=
        List.pairwise_reverse.mpr hsort.2
      rw [hrev] at hpw
      have hmax : ∀ c ∈ s.backends, c.free_size ≤ bz.free_size := by
        intro c hc
        obtain ⟨n, hn, hnc⟩ := List.mem_iff_getElem.mp hc
        have hrevmem : (n, c) ∈ (iz, bz) :: t := by
          rw [← hrev]
          exact hrevperm.mem_iff.mpr (List.mk_mem_enum_iff_getElem?.mpr
            (by rw [List.getElem?_eq_getElem hn, hnc]))
        rcases List.mem_cons.mp hrevmem with heq | hmem
        · cases heq
          exact le_rfl
        · exact (List.pairwise_cons.mp hpw).1 _ hmem
      have hzget : s.backends[iz]? = some bz := by
        have hzenum : (iz, bz) ∈ s.backends.enum := by
          rw [← hrevperm.mem_iff, hrev]
          exact List.mem_cons_self _ _
        exact List.mk_mem_enum_iff_getElem?.mp hzenum
      have hzpos : 0 < bz.free_size := lt_of_lt_of_le hc0pos (hmax c0 hc0mem)
      have hzlt : bz.used_capacity < bz.total_capacity := by
        unfold CacheBackend.free_size at hzpos
        omega
      refine ⟨iz, bz, hzget, hzpos, hmax, ?_⟩
      unfold PieceCachesState.pop_free_offset_with
      rw [hd, hrev, findMapNextFree_cons_alloc s.backends iz bz t hzlt]
  · constructor
    · intro hnone
      cases hd : s.dangling_free_offsets with
      | cons f rest =>
        unfold PieceCachesState.pop_free_offset_with at hnone
        rw [hd] at hnone
        simp at hnone
      | nil =>
        refine ⟨rfl, ?_⟩
        unfold PieceCachesState.pop_free_offset_with at hnone
        rw [hd] at hnone
        cases hfm : findMapNextFree s.backends sorted.reverse with
        | some v =>
          rw [hfm] at hnone
          obtain ⟨off, backends'⟩ := v
          simp at hnone
        | none =>
          have hall := (findMapNextFree_eq_none_iff _ _).mp hfm
          intro b hbmem
          obtain ⟨n, hn, hnb⟩ := List.mem_iff_getElem.mp hbmem
          have henum : (n, b) ∈ s.backends.enum :=
            List.mk_mem_enum_iff_getElem?.mpr
              (by rw [List.getElem?_eq_getElem hn, hnb])
          exact hall (n, b) (hrevperm.mem_iff.mpr henum)
    · rintro ⟨hd, hall⟩
      unfold PieceCachesState.pop_free_offset_with
      rw [hd]
      rw [show findMapNextFree s.backends sorted.reverse = none from by
        rw [findMapNextFree_eq_none_iff]
        intro p hp
        have henum : p ∈ s.backends.enum := hrevperm.mem_iff.mp hp
        have hget : s.backends[p.1]? = some p.2 := by
          obtain ⟨a, c⟩ := p
          exact List.mk_mem_enum_iff_getElem?.mp henum
        have hmem : p.2 ∈ s.backends := by
          obtain ⟨h1, h2⟩ := List.getElem?_eq_some.mp hget
          exact h2 ▸ List.getElem_mem h1
        exact hall p.2 hmem]

/-- Witness for C3's amended theorem: the FIFO case (one backend, the identity
sort outcome) and the allocation case (two backends of free sizes 2 and 2,
identity sort outcome) at concrete states. -/
theorem pop_free_offset_with_spec_witness :
    PieceCachesState.pop_free_offset_with ⟨[], [⟨0, 1⟩, ⟨1, 2⟩], [⟨0, 2⟩]⟩
        [(0, ⟨0, 2⟩)]
      = (some ⟨0, 1⟩, ⟨[], [⟨1, 2⟩], [⟨0, 2⟩]⟩)
    ∧ ∃ i b, (([⟨0, 2⟩, ⟨1, 3⟩] : List CacheBackend))[i]? = some b
        ∧ 0 < b.free_size
        ∧ (∀ c ∈ ([⟨0, 2⟩, ⟨1, 3⟩] : List CacheBackend), c.free_size ≤ b.free_size)
        ∧ PieceCachesState.pop_free_offset_with ⟨[], [], [⟨0, 2⟩, ⟨1, 3⟩]⟩
            [(0, ⟨0, 2⟩), (1, ⟨1, 3⟩)]
          = (some ⟨i, b.used_capacity⟩,
             ⟨[], [], ([⟨0, 2⟩, ⟨1, 3⟩] : List CacheBackend).set i
                 { b with used_capacity := b.used_capacity + 1 }⟩) :=
  ⟨(pop_free_offset_with_spec ⟨[], [⟨0, 1⟩, ⟨1, 2⟩], [⟨0, 2⟩]⟩ [(0, ⟨0, 2⟩)]
      ⟨by decide, by decide⟩).1 ⟨0, 1⟩ [⟨1, 2⟩] rfl,
   (pop_free_offset_with_spec ⟨[], [], [⟨0, 2⟩, ⟨1, 3⟩]⟩ [(0, ⟨0, 2⟩), (1, ⟨1, 3⟩)]
      ⟨by decide, by decide⟩).2.1 rfl ⟨⟨0, 2⟩, by decide, by decide⟩⟩
